import Mathlib

/-!
# bplaw: the Stan helper functions `diff_function_logintegral` and `zeta`

Shallow embedding of `code/stan/diff_function_logintegral.hpp` and
`code/stan/zeta.hpp`.

* The two C++ functions are translated once, generically, over a carrier `D`
  of doubles and a record `Lib D` holding every operation they call into
  (`std::pow`, `std::log`, `boost::math::zeta`, the `exp_sinh` integrator, ...).
  Statements proved for every `Lib D` therefore hold for any arithmetic,
  rounded or not.
* `Dbl` is an idealised IEEE-754 double: a real number or one of `+inf`,
  `-inf`, `NaN`.  Special values follow IEEE-754 / C11 Annex F; on finite
  values the operations are the exact real ones (no rounding, no overflow, the
  two zeros identified).  `idealLib X` is the library over `Dbl`; the
  integrator and the behaviour of the boost special functions outside their
  regular domain are left as the parameter `X`.
-/

namespace Bplaw

/-! ## The library interface used by the two source files -/

/-- Operations the source calls, over a carrier `D` of doubles. -/
structure Lib (D : Type) where
  /-- unary minus on `double` -/
  neg : D → D
  /-- binary `-` on `double` -/
  sub : D → D → D
  /-- binary `*` on `double` -/
  mul : D → D → D
  /-- binary `/` on `double` -/
  div : D → D → D
  /-- `std::pow` -/
  pow : D → D → D
  /-- `std::log` -/
  log : D → D
  /-- `std::exp` -/
  exp : D → D
  /-- `std::sqrt` -/
  sqrt : D → D
  /-- `boost::math::isfinite` -/
  isfinite : D → Bool
  /-- `boost::math::digamma` -/
  digamma : D → D
  /-- `boost::math::tgamma` -/
  tgamma : D → D
  /-- `boost::math::zeta` -/
  zeta : D → D
  /-- `std::numeric_limits<double>::epsilon()` -/
  epsilon : D
  /-- `std::numeric_limits<double>::infinity()` -/
  infinity : D
  /-- the literal `0.0` -/
  zero : D
  /-- the literal `1` -/
  one : D
  /-- the literal `2` -/
  two : D
  /-- the literal `0.5` -/
  half : D
  /-- `exp_sinh<double>::integrate(f, a, b, tol, &error, &L1, &levels)`; only the
  returned estimate is kept, the three out-parameters are never read -/
  integrate : (D → D) → D → D → D → D
  /-- `exp_sinh<double>::integrate(f, tol, &error, &L1, &levels)`, the overload
  over `(0, +inf)` -/
  integrate0 : (D → D) → D → D

/-! ## Stan's `var` -/

/-- Modelled from the spec: the type `var` and the node `precomp_v_vari` belong
to the Stan math library, which is not under `src/`.  A `var` is the spec's dual
number: a value together with a derivative with respect to one tracked
upstream parameter.  `input` is a dual number built by the caller, `constant`
is `var(double)` (a fresh node without operands), and `precomp_v_vari val avi da`
is the node with value `val`, linked to the operand node `avi`, with stored
partial derivative `da`. -/
inductive var (D : Type) where
  | input (value : D) (derivative : D) : var D
  | constant (value : D) : var D
  | precomp_v_vari (value : D) (avi : var D) (da : D) : var D

/-- The call `v.val()`. -/
def var.val {D : Type} : var D → D
  | .input v _ => v
  | .constant v => v
  | .precomp_v_vari v _ _ => v

/-- Modelled from the spec: the derivative carried by a dual number.  A
constant carries none (zero); a `precomp_v_vari` node carries its stored
partial times the derivative of the node it is linked to (spec 4.2 step 5,
"derivative = (dζ/ds) * chain-rule factor from s's own derivative"). -/
def var.derivative {D : Type} (L : Lib D) : var D → D
  | .input _ d => d
  | .constant _ => L.zero
  | .precomp_v_vari _ avi da => L.mul da (avi.derivative L)

/-- A template argument `T0__ ... T3__`: a plain `double` or a `var`. -/
inductive Arg (D : Type) where
  | ofDouble (x : D) : Arg D
  | ofVar (v : var D) : Arg D

/-- The call `value_of(a)`: the plain value of a scalar or of a `var`. -/
def value_of {D : Type} : Arg D → D
  | .ofDouble x => x
  | .ofVar v => v.val

/-- Whether a template argument is a `var`. -/
def Arg.isVar {D : Type} : Arg D → Bool
  | .ofDouble _ => false
  | .ofVar _ => true

/-- The conversion `T ans = <double>` for
`T = promote_args<T0__, T1__, T2__, T3__>::type`: `T` is `var` as soon as one
argument is a `var`, and a `var` built from a `double` is a constant node. -/
def promote {D : Type} (anyVar : Bool) (x : D) : Arg D :=
  if anyVar then .ofVar (.constant x) else .ofDouble x

/-- The derivative carried by a result of type `T`: none for a `double`. -/
def Arg.derivative {D : Type} (L : Lib D) : Arg D → D
  | .ofDouble _ => L.zero
  | .ofVar v => v.derivative L

/-! ## `diff_function_logintegral.hpp` -/

/-- The lambda `f` (line 12-14):
`pow(x, -value_of(alpha)) * pow(value_of(z), x-1) * pow(value_of(w), pow(x-1, 2))`. -/
def f {D : Type} (L : Lib D) (alpha z w : Arg D) (x : D) : D :=
  L.mul
    (L.mul (L.pow x (L.neg (value_of alpha))) (L.pow (value_of z) (L.sub x L.one)))
    (L.pow (value_of w) (L.pow (L.sub x L.one) L.two))

/-- The local `termination` (line 15): `pow(epsilon(), 0.5)`. -/
def termination {D : Type} (L : Lib D) : D :=
  L.pow L.epsilon L.half

/-- The local `Q` (line 19):
`integrator.integrate(f, value_of(m), inf, termination, &error, &L1, &levels)`. -/
def Q {D : Type} (L : Lib D) (alpha z w m : Arg D) : D :=
  L.integrate (f L alpha z w) (value_of m) L.infinity (termination L)

/-- The function `diff_function_logintegral` (the stream `pstream__` is never
used and is left out): `T ans = std::log(Q); return ans;`. -/
def diff_function_logintegral {D : Type} (L : Lib D) (alpha z w m : Arg D) : Arg D :=
  promote (alpha.isVar || z.isVar || w.isVar || m.isVar) (L.log (Q L alpha z w m))

/-! ## `zeta.hpp` -/

/-- The overload `zeta(const double& s, ...)`: `return boost::math::zeta(s);`. -/
def zeta {D : Type} (L : Lib D) (s : D) : D :=
  L.zeta s

/-- The local `ans` of the lambda `int_rep_zeta_prime` (line 16):
`pow(x, s-1) * (log(x) - digamma(s)) / (exp(x) - 1)`. -/
def int_rep_zeta_prime_ans {D : Type} (L : Lib D) (s x : D) : D :=
  L.div
    (L.mul (L.pow x (L.sub s L.one)) (L.sub (L.log x) (L.digamma s)))
    (L.sub (L.exp x) L.one)

/-- The lambda `int_rep_zeta_prime` (line 15-19):
`if(!isfinite(ans)) return 0.0; return ans;`. -/
def int_rep_zeta_prime {D : Type} (L : Lib D) (s x : D) : D :=
  if !(L.isfinite (int_rep_zeta_prime_ans L s x)) then L.zero
  else int_rep_zeta_prime_ans L s x

/-- The local `tolerance` (line 20): `sqrt(epsilon())`. -/
def tolerance {D : Type} (L : Lib D) : D :=
  L.sqrt L.epsilon

/-- The local `deriv` (line 24):
`integrator.integrate(int_rep_zeta_prime, tolerance, ...) / tgamma(s)`. -/
def zeta_deriv {D : Type} (L : Lib D) (s : D) : D :=
  L.div (L.integrate0 (int_rep_zeta_prime L s) (tolerance L)) (L.tgamma s)

/-- The overload `zeta(const var& s_var, ...)`:
`return var(new precomp_v_vari(f, s_var.vi_, deriv));` with `s = s_var.val()`
and `f = zeta(s, pstream__)`. -/
def zeta_var {D : Type} (L : Lib D) (s_var : var D) : var D :=
  .precomp_v_vari (zeta L s_var.val) s_var (zeta_deriv L s_var.val)

/-! ## Idealised doubles -/

/-- An idealised IEEE-754 double: a real number, `+inf`, `-inf` or `NaN`.
Finite values are exact reals, so rounding and overflow are not represented,
and `+0` and `-0` are the one value `fin 0`. -/
inductive Dbl where
  | fin (x : ℝ) : Dbl
  | pinf : Dbl
  | ninf : Dbl
  | nan : Dbl

namespace Dbl

/-- The real number held by a finite double (`0` for the special values). -/
def toReal : Dbl → ℝ
  | fin x => x
  | _ => 0

/-- The test `isfinite`. -/
def isfinite : Dbl → Bool
  | fin _ => true
  | _ => false

/-- Unary minus. -/
def neg : Dbl → Dbl
  | fin x => fin (-x)
  | pinf => ninf
  | ninf => pinf
  | nan => nan

noncomputable section

/-- IEEE subtraction: `inf - inf` of equal signs is `NaN`. -/
def sub : Dbl → Dbl → Dbl
  | fin x, fin y => fin (x - y)
  | fin _, pinf => ninf
  | fin _, ninf => pinf
  | pinf, fin _ => pinf
  | pinf, ninf => pinf
  | pinf, pinf => nan
  | ninf, fin _ => ninf
  | ninf, pinf => ninf
  | ninf, ninf => nan
  | nan, _ => nan
  | _, nan => nan

/-- An infinity times a finite `y`: `NaN` for `y = 0`, else signed. -/
def infMul (positive : Bool) (y : ℝ) : Dbl :=
  if y = 0 then nan else if (0 < y) = (positive = true) then pinf else ninf

/-- IEEE multiplication: `0 * inf` is `NaN`. -/
def mul : Dbl → Dbl → Dbl
  | fin x, fin y => fin (x * y)
  | fin x, pinf => infMul true x
  | fin x, ninf => infMul false x
  | pinf, fin y => infMul true y
  | ninf, fin y => infMul false y
  | pinf, pinf => pinf
  | pinf, ninf => ninf
  | ninf, pinf => ninf
  | ninf, ninf => pinf
  | nan, _ => nan
  | _, nan => nan

/-- IEEE division: `0 / 0` and `inf / inf` are `NaN`, a non-zero finite value
over zero is an infinity (the zero divisor counts as `+0`). -/
def div : Dbl → Dbl → Dbl
  | fin x, fin y =>
    if y = 0 then (if x = 0 then nan else if 0 < x then pinf else ninf) else fin (x / y)
  | fin _, pinf => fin 0
  | fin _, ninf => fin 0
  | pinf, fin y => if 0 ≤ y then pinf else ninf
  | ninf, fin y => if 0 ≤ y then ninf else pinf
  | pinf, pinf => nan
  | pinf, ninf => nan
  | ninf, pinf => nan
  | ninf, ninf => nan
  | nan, _ => nan
  | _, nan => nan

/-- The function `std::log` (C11 F.10.3.7): `log(0) = -inf`, `log(x) = NaN` for
`x < 0`, `log(+inf) = +inf`. -/
def log : Dbl → Dbl
  | fin x => if 0 < x then fin (Real.log x) else if x = 0 then ninf else nan
  | pinf => pinf
  | ninf => nan
  | nan => nan

/-- The function `std::exp` (C11 F.10.3.1): `exp(-inf) = 0`, `exp(+inf) = +inf`. -/
def exp : Dbl → Dbl
  | fin x => fin (Real.exp x)
  | pinf => pinf
  | ninf => fin 0
  | nan => nan

/-- The function `std::sqrt` (C11 F.10.4.5): `NaN` below zero. -/
def sqrt : Dbl → Dbl
  | fin x => if 0 ≤ x then fin (Real.sqrt x) else nan
  | pinf => pinf
  | ninf => nan
  | nan => nan

/-- The function `std::pow` (C11 F.10.4.4), without signed zeros. -/
def pow : Dbl → Dbl → Dbl
  | fin x, fin y =>
    if y = 0 then fin 1
    else if 0 < x then fin (x ^ y)
    else if x = 0 then (if 0 < y then fin 0 else pinf)
    else if y = (⌊y⌋ : ℝ) then fin (x ^ ⌊y⌋)
    else nan
  | fin x, pinf =>
    if |x| < 1 then fin 0 else if |x| = 1 then fin 1 else pinf
  | fin x, ninf =>
    if |x| < 1 then pinf else if |x| = 1 then fin 1 else fin 0
  | fin x, nan => if x = 1 then fin 1 else nan
  | pinf, fin y => if y = 0 then fin 1 else if 0 < y then pinf else fin 0
  | pinf, pinf => pinf
  | pinf, ninf => fin 0
  | pinf, nan => nan
  | ninf, fin y =>
    if y = 0 then fin 1
    else if y < 0 then fin 0
    else if y = (⌊y⌋ : ℝ) ∧ Odd ⌊y⌋ then ninf
    else pinf
  | ninf, pinf => pinf
  | ninf, ninf => fin 0
  | ninf, nan => nan
  | nan, fin y => if y = 0 then fin 1 else nan
  | nan, _ => nan

end

end Dbl

/-- What the idealised library leaves open: the two overloads of the
quadrature integrator, and what the boost special functions return outside the
domain on which the mathematical function is defined (poles, infinities, `NaN`;
this depends on the boost error policy in force). -/
structure External where
  /-- `exp_sinh<double>::integrate(f, a, b, tol, ...)` -/
  integrate : (Dbl → Dbl) → Dbl → Dbl → Dbl → Dbl
  /-- `exp_sinh<double>::integrate(f, tol, ...)` -/
  integrate0 : (Dbl → Dbl) → Dbl → Dbl
  /-- `boost::math::digamma` at a pole, an infinity or `NaN` -/
  digamma_special : Dbl → Dbl
  /-- `boost::math::tgamma` at a pole, an infinity or `NaN` -/
  tgamma_special : Dbl → Dbl
  /-- `boost::math::zeta` at the pole, an infinity or `NaN` -/
  zeta_special : Dbl → Dbl

noncomputable section

/-- The digamma function on the reals: the logarithmic derivative of `Gamma`. -/
def digammaReal (x : ℝ) : ℝ :=
  deriv Real.Gamma x / Real.Gamma x

/-- The Riemann zeta function on the real axis. -/
def zetaReal (s : ℝ) : ℝ :=
  (riemannZeta (s : ℂ)).re

/-- The poles of `Gamma` and of digamma: `0, -1, -2, ...`. -/
def isPole (x : ℝ) : Prop :=
  ∃ m : ℕ, x = -(m : ℝ)

instance isPole.decidable (x : ℝ) : Decidable (isPole x) :=
  Classical.propDecidable _

/-- The function `boost::math::digamma`: exact away from the poles. -/
def Dbl.digamma (X : External) : Dbl → Dbl
  | .fin x => if isPole x then X.digamma_special (.fin x) else .fin (digammaReal x)
  | d => X.digamma_special d

/-- The function `boost::math::tgamma`: exact away from the poles. -/
def Dbl.tgamma (X : External) : Dbl → Dbl
  | .fin x => if isPole x then X.tgamma_special (.fin x) else .fin (Real.Gamma x)
  | d => X.tgamma_special d

/-- The function `boost::math::zeta`: exact away from the pole `1`. -/
def Dbl.zeta (X : External) : Dbl → Dbl
  | .fin s => if s = 1 then X.zeta_special (.fin s) else .fin (zetaReal s)
  | d => X.zeta_special d

/-- The idealised library over `Dbl`. -/
def idealLib (X : External) : Lib Dbl where
  neg := Dbl.neg
  sub := Dbl.sub
  mul := Dbl.mul
  div := Dbl.div
  pow := Dbl.pow
  log := Dbl.log
  exp := Dbl.exp
  sqrt := Dbl.sqrt
  isfinite := Dbl.isfinite
  digamma := Dbl.digamma X
  tgamma := Dbl.tgamma X
  zeta := Dbl.zeta X
  epsilon := .fin ((2 : ℝ) ^ (-52 : ℤ))
  infinity := .pinf
  zero := .fin 0
  one := .fin 1
  two := .fin 2
  half := .fin (1 / 2)
  integrate := X.integrate
  integrate0 := X.integrate0

end


/-- A concrete `External`: the integrator is the one-sample rule that returns
the integrand at the lower bound (at `1` for the overload over `(0, +inf)`), and
the boost functions return `NaN` outside their regular domain. -/
def sampleExternal : External where
  integrate := fun g a _ _ => g a
  integrate0 := fun g _ => g (.fin 1)
  digamma_special := fun _ => .nan
  tgamma_special := fun _ => .nan
  zeta_special := fun _ => .nan

/-! ## Evaluation lemmas for the idealised library -/

theorem Dbl.pow_fin_two (t : ℝ) : Dbl.pow (.fin t) (.fin 2) = .fin (t ^ 2) := by
  unfold Dbl.pow
  have h2 : (2 : ℝ) ≠ 0 := by norm_num
  have hfl : ((⌊(2 : ℝ)⌋ : ℤ) : ℝ) = 2 := by
    have : ⌊(2 : ℝ)⌋ = 2 := by simp
    rw [this]; norm_num
  simp only [h2, if_false]
  rcases lt_trichotomy 0 t with h | h | h
  · rw [if_pos h]; congr 1
    exact_mod_cast Real.rpow_natCast t 2
  · subst h; simp
  · rw [if_neg (not_lt.mpr h.le), if_neg h.ne, if_pos hfl.symm]
    congr 1
    have : ⌊(2 : ℝ)⌋ = 2 := by simp
    rw [this]; norm_cast

theorem Dbl.pow_fin_of_pos {x : ℝ} (hx : 0 < x) (y : ℝ) :
    Dbl.pow (.fin x) (.fin y) = .fin (x ^ y) := by
  unfold Dbl.pow
  by_cases hy : y = 0
  · simp [hy]
  · simp [hy, hx]


theorem f_ideal_of_pos (X : External) (alpha z w : Arg Dbl) (a zr wr x : ℝ)
    (ha : value_of alpha = .fin a) (hz : value_of z = .fin zr) (hw : value_of w = .fin wr)
    (hzr : 0 < zr) (hwr : 0 < wr) (hx : 0 < x) :
    f (idealLib X) alpha z w (.fin x) = .fin (x ^ (-a) * zr ^ (x - 1) * wr ^ ((x - 1) ^ 2)) := by
  simp only [f, idealLib, ha, hz, hw, Dbl.neg, Dbl.sub, Dbl.pow_fin_two,
    Dbl.pow_fin_of_pos hx, Dbl.pow_fin_of_pos hzr, Dbl.pow_fin_of_pos hwr, Dbl.mul]

theorem termination_ideal (X : External) :
    termination (idealLib X) = .fin ((2 : ℝ) ^ (-26 : ℤ)) := by
  have hpos : (0 : ℝ) < (2 : ℝ) ^ (-52 : ℤ) := by positivity
  simp only [termination, idealLib, Dbl.pow_fin_of_pos hpos]
  congr 1
  rw [← Real.sqrt_eq_rpow]
  have h : (2 : ℝ) ^ (-52 : ℤ) = ((2 : ℝ) ^ (-26 : ℤ)) ^ 2 := by
    rw [← zpow_natCast, ← zpow_mul]; norm_num
  rw [h, Real.sqrt_sq (by positivity)]

theorem tolerance_ideal (X : External) :
    tolerance (idealLib X) = .fin ((2 : ℝ) ^ (-26 : ℤ)) := by
  have hpos : (0 : ℝ) ≤ (2 : ℝ) ^ (-52 : ℤ) := by positivity
  simp only [tolerance, idealLib, Dbl.sqrt, if_pos hpos]
  congr 1
  have h : (2 : ℝ) ^ (-52 : ℤ) = ((2 : ℝ) ^ (-26 : ℤ)) ^ 2 := by
    rw [← zpow_natCast, ← zpow_mul]; norm_num
  rw [h, Real.sqrt_sq (by positivity)]

theorem value_of_promote {D : Type} (b : Bool) (x : D) : value_of (promote b x) = x := by
  cases b <;> rfl

theorem derivative_promote {D : Type} (L : Lib D) (b : Bool) (x : D) :
    (promote b x).derivative L = L.zero := by
  cases b <;> rfl

/-- The real integrand `g(x) = x^(s-1) * (ln x - digamma s) / (e^x - 1)`. -/
theorem int_rep_zeta_prime_ans_ideal_of_pos (X : External) {s x : ℝ} (hs : ¬ isPole s)
    (hx : 0 < x) :
    int_rep_zeta_prime_ans (idealLib X) (.fin s) (.fin x) =
      .fin (x ^ (s - 1) * (Real.log x - digammaReal s) / (Real.exp x - 1)) := by
  have hne : Real.exp x - 1 ≠ 0 := by
    have := Real.add_one_lt_exp hx.ne'
    linarith
  simp only [int_rep_zeta_prime_ans, idealLib, Dbl.sub, Dbl.pow_fin_of_pos hx, Dbl.log,
    if_pos hx, Dbl.digamma, if_neg hs, Dbl.mul, Dbl.exp, Dbl.div, if_neg hne]

theorem int_rep_zeta_prime_ideal_of_pos (X : External) {s x : ℝ} (hs : ¬ isPole s)
    (hx : 0 < x) :
    int_rep_zeta_prime (idealLib X) (.fin s) (.fin x) =
      .fin (x ^ (s - 1) * (Real.log x - digammaReal s) / (Real.exp x - 1)) := by
  have h := int_rep_zeta_prime_ans_ideal_of_pos X hs hx
  rw [int_rep_zeta_prime, h]
  rfl

theorem not_isPole_of_pos {s : ℝ} (hs : 0 < s) : ¬ isPole s := by
  rintro ⟨m, hm⟩
  have : (0 : ℝ) ≤ m := Nat.cast_nonneg m
  linarith

theorem Dbl.mul_fin_one (d : Dbl) : Dbl.mul d (.fin 1) = d := by
  cases d <;> simp [Dbl.mul, Dbl.infMul]

/-! ## The integral representation of the derivative of zeta

For `s > 1`, `Gamma(s) * zeta'(s)` is the integral over `(0, +inf)` of
`x^(s-1) * (ln x - digamma s) / (e^x - 1)`.  The integrand is expanded in the
geometric series `1 / (e^x - 1) = ∑ e^(-(n+1) x)`, each term is integrated with
the integral formulas for `Gamma` and its derivative, and the sum is compared
with the Dirichlet series of `zeta'`. -/

open MeasureTheory Set Filter Topology

theorem hasDerivAt_Gamma_integral {s : ℝ} (hs : 0 < s) :
    HasDerivAt Real.Gamma (∫ t in Ioi (0 : ℝ), t ^ (s - 1) * (Real.log t * Real.exp (-t))) s := by
  have hs' : 0 < ((s : ℝ) : ℂ).re := by simpa using hs
  have h1 := Complex.hasDerivAt_GammaIntegral hs'
  have h2 : HasDerivAt Complex.Gamma
      (∫ t : ℝ in Ioi 0, (t : ℂ) ^ ((s : ℂ) - 1) * ((Real.log t : ℂ) * (Real.exp (-t) : ℂ)))
      (s : ℂ) := by
    refine h1.congr_of_eventuallyEq ?_
    have hopen : IsOpen {z : ℂ | 0 < z.re} := isOpen_lt continuous_const Complex.continuous_re
    filter_upwards [hopen.mem_nhds hs'] with z hz
    exact Complex.Gamma_eq_integral hz
  have h3 := h2.real_of_complex
  have h4 : (∫ t : ℝ in Ioi 0, (t : ℂ) ^ ((s : ℂ) - 1) * ((Real.log t : ℂ) * (Real.exp (-t) : ℂ)))
      = ((∫ t in Ioi (0 : ℝ), t ^ (s - 1) * (Real.log t * Real.exp (-t)) : ℝ) : ℂ) := by
    refine Eq.trans ?_ (integral_ofReal (𝕜 := ℂ))
    refine setIntegral_congr_fun measurableSet_Ioi (fun t ht => ?_)
    have ht0 : (0 : ℝ) ≤ t := le_of_lt ht
    simp only [RCLike.ofReal_mul, Complex.coe_algebraMap]
    rw [Complex.ofReal_cpow ht0]
    simp
  rw [h4, Complex.ofReal_re] at h3
  exact h3
theorem integrableOn_rpow_mul_exp_neg_mul {a r : ℝ} (ha : 0 < a) (hr : 0 < r) :
    IntegrableOn (fun x : ℝ => x ^ (a - 1) * Real.exp (-(r * x))) (Ioi 0) := by
  have h := integrableOn_rpow_mul_exp_neg_mul_rpow (show (-1 : ℝ) < a - 1 by linarith)
    (le_refl (1 : ℝ)) hr
  refine h.congr_fun (fun x _ => ?_) measurableSet_Ioi
  simp only [Real.rpow_one, neg_mul]

theorem abs_log_le_rpow_add_rpow {x ε : ℝ} (hx : 0 < x) (hε : 0 < ε) :
    |Real.log x| ≤ (x ^ ε + x ^ (-ε)) / ε := by
  have h1 : Real.log x ≤ x ^ ε / ε := Real.log_le_rpow_div hx.le hε
  have h2 : -Real.log x ≤ x ^ (-ε) / ε := by
    have h := Real.log_le_rpow_div (inv_pos.mpr hx).le hε
    rwa [Real.log_inv, Real.inv_rpow hx.le, ← Real.rpow_neg hx.le] at h
  have p1 : 0 ≤ x ^ ε / ε := div_nonneg (Real.rpow_nonneg hx.le _) hε.le
  have p2 : 0 ≤ x ^ (-ε) / ε := div_nonneg (Real.rpow_nonneg hx.le _) hε.le
  rw [add_div, abs_le]
  constructor <;> linarith

/-- Pointwise bound for the summand `x^(s-1) * (log x - c) * exp (-(r x))`. -/
theorem norm_term_le {s c r ε x : ℝ} (hε : 0 < ε) (hx : 0 < x) :
    ‖x ^ (s - 1) * (Real.log x - c) * Real.exp (-(r * x))‖ ≤
      (x ^ (s + ε - 1) * Real.exp (-(r * x)) + x ^ (s - ε - 1) * Real.exp (-(r * x))) / ε
        + |c| * (x ^ (s - 1) * Real.exp (-(r * x))) := by
  have hA : 0 ≤ x ^ (s - 1) := Real.rpow_nonneg hx.le _
  have hE : 0 ≤ Real.exp (-(r * x)) := (Real.exp_pos _).le
  rw [Real.norm_eq_abs, abs_mul, abs_mul, abs_of_nonneg hA, abs_of_nonneg hE]
  have hl : |Real.log x - c| ≤ (x ^ ε + x ^ (-ε)) / ε + |c| :=
    (abs_sub _ _).trans (add_le_add (abs_log_le_rpow_add_rpow hx hε) le_rfl)
  have e1 : x ^ (s + ε - 1) = x ^ (s - 1) * x ^ ε := by
    rw [← Real.rpow_add hx]; congr 1; ring
  have e2 : x ^ (s - ε - 1) = x ^ (s - 1) * x ^ (-ε) := by
    rw [← Real.rpow_add hx]; congr 1; ring
  calc x ^ (s - 1) * |Real.log x - c| * Real.exp (-(r * x))
      ≤ x ^ (s - 1) * ((x ^ ε + x ^ (-ε)) / ε + |c|) * Real.exp (-(r * x)) :=
        mul_le_mul_of_nonneg_right (mul_le_mul_of_nonneg_left hl hA) hE
    _ = _ := by rw [e1, e2]; ring

theorem measurable_term (s c r : ℝ) :
    Measurable (fun x : ℝ => x ^ (s - 1) * (Real.log x - c) * Real.exp (-(r * x))) := by
  exact ((measurable_id.pow_const _).mul (Real.measurable_log.sub measurable_const)).mul
    (Real.measurable_exp.comp (measurable_const.mul measurable_id).neg)

/-- The dominating function of `norm_term_le` is integrable. -/
theorem integrableOn_bound {s r ε : ℝ} (c : ℝ) (hε : 0 < ε) (hsε : ε < s) (hr : 0 < r) :
    IntegrableOn (fun x : ℝ =>
      (x ^ (s + ε - 1) * Real.exp (-(r * x)) + x ^ (s - ε - 1) * Real.exp (-(r * x))) / ε
        + |c| * (x ^ (s - 1) * Real.exp (-(r * x)))) (Ioi 0) := by
  have h1 := integrableOn_rpow_mul_exp_neg_mul (show 0 < s + ε by linarith) hr
  have h2 := integrableOn_rpow_mul_exp_neg_mul (show 0 < s - ε by linarith) hr
  have h3 := integrableOn_rpow_mul_exp_neg_mul (show 0 < s by linarith) hr
  have h12 : IntegrableOn (fun x : ℝ =>
      (x ^ (s + ε - 1) * Real.exp (-(r * x)) + x ^ (s - ε - 1) * Real.exp (-(r * x))) / ε)
      (Ioi 0) := (h1.add h2).div_const ε
  exact h12.add (h3.const_mul |c|)

theorem integrableOn_term {s r : ℝ} (c : ℝ) (hs : 0 < s) (hr : 0 < r) :
    IntegrableOn (fun x : ℝ => x ^ (s - 1) * (Real.log x - c) * Real.exp (-(r * x))) (Ioi 0) := by
  have hε : 0 < s / 2 := by linarith
  refine Integrable.mono' (integrableOn_bound c hε (show s / 2 < s by linarith) hr)
    (measurable_term s c r).aestronglyMeasurable ?_
  rw [ae_restrict_iff' measurableSet_Ioi]
  exact Eventually.of_forall (fun x hx => norm_term_le hε hx)

/-- The integral of the dominating function. -/
theorem integral_bound {s r ε : ℝ} (c : ℝ) (hε : 0 < ε) (hsε : ε < s) (hr : 0 < r) :
    ∫ x in Ioi (0 : ℝ),
      ((x ^ (s + ε - 1) * Real.exp (-(r * x)) + x ^ (s - ε - 1) * Real.exp (-(r * x))) / ε
        + |c| * (x ^ (s - 1) * Real.exp (-(r * x)))) =
      ((1 / r) ^ (s + ε) * Real.Gamma (s + ε) + (1 / r) ^ (s - ε) * Real.Gamma (s - ε)) / ε
        + |c| * ((1 / r) ^ s * Real.Gamma s) := by
  have h1 := integrableOn_rpow_mul_exp_neg_mul (show 0 < s + ε by linarith) hr
  have h2 := integrableOn_rpow_mul_exp_neg_mul (show 0 < s - ε by linarith) hr
  have h3 := integrableOn_rpow_mul_exp_neg_mul (show 0 < s by linarith) hr
  have h12 : IntegrableOn (fun x : ℝ =>
      (x ^ (s + ε - 1) * Real.exp (-(r * x)) + x ^ (s - ε - 1) * Real.exp (-(r * x))) / ε)
      (Ioi 0) := (h1.add h2).div_const ε
  have h3c : IntegrableOn (fun x : ℝ => |c| * (x ^ (s - 1) * Real.exp (-(r * x)))) (Ioi 0) :=
    h3.const_mul |c|
  rw [integral_add h12 h3c, integral_div, integral_add h1 h2, integral_mul_left,
    Real.integral_rpow_mul_exp_neg_mul_Ioi (show 0 < s + ε by linarith) hr,
    Real.integral_rpow_mul_exp_neg_mul_Ioi (show 0 < s - ε by linarith) hr,
    Real.integral_rpow_mul_exp_neg_mul_Ioi (show 0 < s by linarith) hr]

theorem integral_rpow_mul_log_mul_exp_neg {s : ℝ} (hs : 0 < s) (c : ℝ) :
    ∫ u in Ioi (0 : ℝ), u ^ (s - 1) * (Real.log u - c) * Real.exp (-u) =
      deriv Real.Gamma s - c * Real.Gamma s := by
  have hL : IntegrableOn (fun u : ℝ => u ^ (s - 1) * (Real.log u * Real.exp (-u))) (Ioi 0) := by
    have h := integrableOn_term 0 hs one_pos
    refine h.congr_fun (fun x _ => ?_) measurableSet_Ioi
    simp only [sub_zero, one_mul]
    ring
  have hP : IntegrableOn (fun u : ℝ => c * (Real.exp (-u) * u ^ (s - 1))) (Ioi 0) :=
    (Real.GammaIntegral_convergent hs).const_mul c
  have e : ∀ u : ℝ, u ^ (s - 1) * (Real.log u - c) * Real.exp (-u) =
      u ^ (s - 1) * (Real.log u * Real.exp (-u)) - c * (Real.exp (-u) * u ^ (s - 1)) := by
    intro u; ring
  simp only [e]
  rw [integral_sub hL hP, integral_mul_left, ← Real.Gamma_eq_integral hs,
    (hasDerivAt_Gamma_integral hs).deriv]

theorem integral_term {s r : ℝ} (c : ℝ) (hs : 0 < s) (hr : 0 < r) :
    ∫ x in Ioi (0 : ℝ), x ^ (s - 1) * (Real.log x - c) * Real.exp (-(r * x)) =
      (1 / r) ^ s * (deriv Real.Gamma s - (Real.log r + c) * Real.Gamma s) := by
  have hsub := integral_comp_mul_left_Ioi
    (fun u : ℝ => u ^ (s - 1) * (Real.log u - (Real.log r + c)) * Real.exp (-u)) 0 hr
  rw [mul_zero, integral_rpow_mul_log_mul_exp_neg hs] at hsub
  have hcongr : ∫ x in Ioi (0 : ℝ),
      (r * x) ^ (s - 1) * (Real.log (r * x) - (Real.log r + c)) * Real.exp (-(r * x)) =
      ∫ x in Ioi (0 : ℝ),
        r ^ (s - 1) * (x ^ (s - 1) * (Real.log x - c) * Real.exp (-(r * x))) := by
    refine setIntegral_congr_fun measurableSet_Ioi (fun x hx => ?_)
    have hx0 : (0 : ℝ) < x := hx
    rw [Real.mul_rpow hr.le hx0.le, Real.log_mul hr.ne' hx0.ne']
    ring
  rw [hcongr, integral_mul_left, smul_eq_mul] at hsub
  have hr1 : r ^ (s - 1) ≠ 0 := (Real.rpow_pos_of_pos hr _).ne'
  have hrs : (1 / r) ^ s = (r ^ (s - 1))⁻¹ * r⁻¹ := by
    rw [one_div, Real.inv_rpow hr.le, Real.rpow_sub_one hr.ne']
    field_simp
  rw [hrs, mul_assoc, ← hsub, ← mul_assoc, inv_mul_cancel₀ hr1, one_mul]

theorem summable_one_div_succ_rpow {p : ℝ} (hp : 1 < p) :
    Summable (fun n : ℕ => (1 / ((n : ℝ) + 1)) ^ p) := by
  have h := (summable_nat_add_iff 1).mpr (Real.summable_one_div_nat_rpow.mpr hp)
  refine h.congr (fun n => ?_)
  have hn : (0 : ℝ) ≤ (n : ℝ) + 1 := by positivity
  rw [Real.div_rpow zero_le_one hn, Real.one_rpow]
  push_cast
  rfl

theorem summable_integral_norm_term {s : ℝ} (c : ℝ) (hs : 1 < s) :
    Summable (fun n : ℕ => ∫ x in Ioi (0 : ℝ),
      ‖x ^ (s - 1) * (Real.log x - c) * Real.exp (-(((n : ℝ) + 1) * x))‖) := by
  have hε : 0 < (s - 1) / 2 := by linarith
  have hεs : (s - 1) / 2 < s := by linarith
  have hs0 : 0 < s := by linarith
  have hbound : Summable (fun n : ℕ =>
      ((1 / ((n : ℝ) + 1)) ^ (s + (s - 1) / 2) * Real.Gamma (s + (s - 1) / 2)
        + (1 / ((n : ℝ) + 1)) ^ (s - (s - 1) / 2) * Real.Gamma (s - (s - 1) / 2)) / ((s - 1) / 2)
        + |c| * ((1 / ((n : ℝ) + 1)) ^ s * Real.Gamma s)) := by
    have h1 := summable_one_div_succ_rpow (show 1 < s + (s - 1) / 2 by linarith)
    have h2 := summable_one_div_succ_rpow (show 1 < s - (s - 1) / 2 by linarith)
    have h3 := summable_one_div_succ_rpow hs
    exact (((h1.mul_right _).add (h2.mul_right _)).div_const _).add
      ((h3.mul_right _).mul_left _)
  refine Summable.of_nonneg_of_le (fun n => integral_nonneg (fun x => norm_nonneg _))
    (fun n => ?_) hbound
  have hr : (0 : ℝ) < (n : ℝ) + 1 := by positivity
  rw [← integral_bound c hε hεs hr]
  refine setIntegral_mono_on (integrableOn_term c hs0 hr).norm
    (integrableOn_bound c hε hεs hr) measurableSet_Ioi (fun x hx => norm_term_le hε hx)

theorem hasSum_term {s c x : ℝ} (hx : 0 < x) :
    HasSum (fun n : ℕ => x ^ (s - 1) * (Real.log x - c) * Real.exp (-(((n : ℝ) + 1) * x)))
      (x ^ (s - 1) * (Real.log x - c) / (Real.exp x - 1)) := by
  have h0 : 0 ≤ Real.exp (-x) := (Real.exp_pos _).le
  have h1 : Real.exp (-x) < 1 := by
    have h := Real.exp_lt_exp.mpr (show -x < 0 by linarith)
    rwa [Real.exp_zero] at h
  have hg := (hasSum_geometric_of_lt_one h0 h1).mul_left
    (x ^ (s - 1) * (Real.log x - c) * Real.exp (-x))
  have hne : Real.exp x - 1 ≠ 0 := by
    have := Real.add_one_lt_exp hx.ne'
    linarith
  have hne2 : 1 - Real.exp (-x) ≠ 0 := by linarith
  have hval : x ^ (s - 1) * (Real.log x - c) * Real.exp (-x) * (1 - Real.exp (-x))⁻¹ =
      x ^ (s - 1) * (Real.log x - c) / (Real.exp x - 1) := by
    rw [Real.exp_neg] at hne2 ⊢
    have hex : Real.exp x ≠ 0 := (Real.exp_pos x).ne'
    field_simp
  rw [hval] at hg
  have e : (fun n : ℕ => x ^ (s - 1) * (Real.log x - c) * Real.exp (-(((n : ℝ) + 1) * x))) =
      fun n : ℕ => x ^ (s - 1) * (Real.log x - c) * Real.exp (-x) * Real.exp (-x) ^ n := by
    funext n
    rw [show -(((n : ℝ) + 1) * x) = -x + n * (-x) by ring, Real.exp_add, Real.exp_nat_mul]
    ring
  rw [e]
  exact hg

theorem mul_exp_half_le_exp_sub_one {x : ℝ} (hx : 0 < x) :
    x * Real.exp (x / 2) ≤ Real.exp x - 1 := by
  have h1 : x / 2 ≤ Real.sinh (x / 2) := Real.self_le_sinh_iff.mpr (by linarith)
  rw [Real.sinh_eq] at h1
  have hp : 0 < Real.exp (x / 2) := Real.exp_pos _
  have h2 : Real.exp (x / 2) * Real.exp (-(x / 2)) = 1 := by
    rw [← Real.exp_add]; simp
  have h3 : Real.exp (x / 2) * Real.exp (x / 2) = Real.exp x := by
    rw [← Real.exp_add]; congr 1; ring
  nlinarith

theorem norm_integrand_le {s c x : ℝ} (hx : 0 < x) :
    ‖x ^ (s - 1) * (Real.log x - c) / (Real.exp x - 1)‖ ≤
      ‖x ^ (s - 1 - 1) * (Real.log x - c) * Real.exp (-(1 / 2 * x))‖ := by
  have hpos : 0 < Real.exp x - 1 := by
    have := Real.add_one_lt_exp hx.ne'
    linarith
  have hA : 0 ≤ x ^ (s - 1 - 1) := Real.rpow_nonneg hx.le _
  have e1 : x ^ (s - 1) = x ^ (s - 1 - 1) * x := by
    rw [← Real.rpow_add_one hx.ne']; congr 1; ring
  have hE : 0 < Real.exp (-(1 / 2 * x)) := Real.exp_pos _
  rw [Real.norm_eq_abs, Real.norm_eq_abs, abs_div, abs_mul, abs_mul, abs_mul,
    abs_of_nonneg (Real.rpow_nonneg hx.le _), abs_of_nonneg hA, abs_of_pos hpos,
    abs_of_pos hE, div_le_iff₀ hpos, e1]
  have hkey : x ≤ Real.exp (-(1 / 2 * x)) * (Real.exp x - 1) := by
    have h := mul_exp_half_le_exp_sub_one hx
    have h2 : Real.exp (-(1 / 2 * x)) * Real.exp (x / 2) = 1 := by
      rw [← Real.exp_add]; ring_nf; simp
    calc x = Real.exp (-(1 / 2 * x)) * (x * Real.exp (x / 2)) := by
          rw [mul_comm x, ← mul_assoc, h2, one_mul]
      _ ≤ Real.exp (-(1 / 2 * x)) * (Real.exp x - 1) := mul_le_mul_of_nonneg_left h hE.le
  have hB : 0 ≤ x ^ (s - 1 - 1) * |Real.log x - c| := mul_nonneg hA (abs_nonneg _)
  calc x ^ (s - 1 - 1) * x * |Real.log x - c|
      = x ^ (s - 1 - 1) * |Real.log x - c| * x := by ring
    _ ≤ x ^ (s - 1 - 1) * |Real.log x - c| * (Real.exp (-(1 / 2 * x)) * (Real.exp x - 1)) :=
        mul_le_mul_of_nonneg_left hkey hB
    _ = _ := by ring

theorem measurable_integrand (s c : ℝ) :
    Measurable (fun x : ℝ => x ^ (s - 1) * (Real.log x - c) / (Real.exp x - 1)) :=
  ((measurable_id.pow_const _).mul (Real.measurable_log.sub measurable_const)).div
    (Real.measurable_exp.sub measurable_const)

theorem integrableOn_integrand {s : ℝ} (c : ℝ) (hs : 1 < s) :
    IntegrableOn (fun x : ℝ => x ^ (s - 1) * (Real.log x - c) / (Real.exp x - 1)) (Ioi 0) := by
  have hb := (integrableOn_term c (show 0 < s - 1 by linarith)
    (show (0 : ℝ) < 1 / 2 by norm_num)).norm
  refine Integrable.mono' hb (measurable_integrand s c).aestronglyMeasurable ?_
  rw [ae_restrict_iff' measurableSet_Ioi]
  exact Eventually.of_forall (fun x hx => norm_integrand_le hx)

theorem hasSum_integral_term {s : ℝ} (c : ℝ) (hs : 1 < s) :
    HasSum (fun n : ℕ => (1 / ((n : ℝ) + 1)) ^ s *
        (deriv Real.Gamma s - (Real.log ((n : ℝ) + 1) + c) * Real.Gamma s))
      (∫ x in Ioi (0 : ℝ), x ^ (s - 1) * (Real.log x - c) / (Real.exp x - 1)) := by
  have hs0 : 0 < s := by linarith
  have hr : ∀ n : ℕ, (0 : ℝ) < (n : ℝ) + 1 := fun n => by positivity
  have h := hasSum_integral_of_summable_integral_norm
    (fun n : ℕ => integrableOn_term c hs0 (hr n)) (summable_integral_norm_term c hs)
  have e1 : ∀ n : ℕ, ∫ x in Ioi (0 : ℝ),
      x ^ (s - 1) * (Real.log x - c) * Real.exp (-(((n : ℝ) + 1) * x)) =
      (1 / ((n : ℝ) + 1)) ^ s *
        (deriv Real.Gamma s - (Real.log ((n : ℝ) + 1) + c) * Real.Gamma s) :=
    fun n => integral_term c hs0 (hr n)
  have e2 : ∫ x in Ioi (0 : ℝ),
      tsum (fun n : ℕ => x ^ (s - 1) * (Real.log x - c) * Real.exp (-(((n : ℝ) + 1) * x))) =
      ∫ x in Ioi (0 : ℝ), x ^ (s - 1) * (Real.log x - c) / (Real.exp x - 1) :=
    setIntegral_congr_fun measurableSet_Ioi (fun x hx => (hasSum_term hx).tsum_eq)
  simp only [e1] at h
  rw [e2] at h
  exact h

theorem LSeries_logMul_one_eq {s : ℝ} (hs : 1 < s) :
    LSeries (LSeries.logMul 1) (s : ℂ) =
      ((tsum (fun n : ℕ => Real.log ((n : ℝ) + 1) * (1 / ((n : ℝ) + 1)) ^ s) : ℝ) : ℂ) := by
  have habs : LSeries.abscissaOfAbsConv 1 < ((s : ℂ).re : EReal) := by
    rw [LSeries.abscissaOfAbsConv_one, Complex.ofReal_re]
    exact_mod_cast hs
  have hsum : Summable (LSeries.term (LSeries.logMul 1) (s : ℂ)) :=
    LSeriesSummable_logMul_of_lt_re habs
  rw [LSeries, tsum_eq_zero_add hsum, LSeries.term_zero, zero_add, Complex.ofReal_tsum]
  refine tsum_congr (fun n => ?_)
  rw [LSeries.term_of_ne_zero (Nat.succ_ne_zero n)]
  have hn : (0 : ℝ) ≤ (n : ℝ) + 1 := by positivity
  have hcast : ((n + 1 : ℕ) : ℂ) = (((n : ℝ) + 1 : ℝ) : ℂ) := by push_cast; rfl
  simp only [LSeries.logMul, Pi.one_apply, mul_one]
  rw [hcast, ← Complex.ofReal_log hn, ← Complex.ofReal_cpow hn]
  rw [Real.div_rpow zero_le_one hn, Real.one_rpow]
  push_cast
  ring

theorem hasDerivAt_riemannZeta_re {s : ℝ} (hs : 1 < s) :
    HasDerivAt (fun t : ℝ => (riemannZeta (t : ℂ)).re)
      (-tsum (fun n : ℕ => Real.log ((n : ℝ) + 1) * (1 / ((n : ℝ) + 1)) ^ s)) s := by
  have hs' : 1 < ((s : ℝ) : ℂ).re := by simpa using hs
  have habs : LSeries.abscissaOfAbsConv 1 < ((s : ℂ).re : EReal) := by
    rw [LSeries.abscissaOfAbsConv_one, Complex.ofReal_re]
    exact_mod_cast hs
  have h1 := LSeries_hasDerivAt habs
  have h2 : HasDerivAt riemannZeta (-LSeries (LSeries.logMul 1) (s : ℂ)) (s : ℂ) := by
    refine h1.congr_of_eventuallyEq ?_
    have hopen : IsOpen {z : ℂ | 1 < z.re} := isOpen_lt continuous_const Complex.continuous_re
    filter_upwards [hopen.mem_nhds hs'] with z hz
    exact (LSeries_one_eq_riemannZeta hz).symm
  have h3 := h2.real_of_complex
  rw [LSeries_logMul_one_eq hs, ← Complex.ofReal_neg, Complex.ofReal_re] at h3
  exact h3

theorem integral_integrand_eq {s : ℝ} (hs : 1 < s) :
    1 / Real.Gamma s *
        ∫ x in Ioi (0 : ℝ), x ^ (s - 1) * (Real.log x - digammaReal s) / (Real.exp x - 1) =
      deriv zetaReal s := by
  have hG : Real.Gamma s ≠ 0 := (Real.Gamma_pos_of_pos (by linarith)).ne'
  have h := hasSum_integral_term (digammaReal s) hs
  have e : ∀ n : ℕ, (1 / ((n : ℝ) + 1)) ^ s *
      (deriv Real.Gamma s - (Real.log ((n : ℝ) + 1) + digammaReal s) * Real.Gamma s) =
      -Real.Gamma s * (Real.log ((n : ℝ) + 1) * (1 / ((n : ℝ) + 1)) ^ s) := by
    intro n
    rw [digammaReal]
    field_simp
    ring
  simp only [e] at h
  have hz : deriv zetaReal s =
      -tsum (fun n : ℕ => Real.log ((n : ℝ) + 1) * (1 / ((n : ℝ) + 1)) ^ s) :=
    (hasDerivAt_riemannZeta_re hs).deriv
  rw [← h.tsum_eq, tsum_mul_left, hz]
  field_simp
  ring

/-! ## The claims -/

/-- C1: `diff_function_logintegral` returns `log(Q)`, where `Q` is what the
integrator returns for the integrand
`x ↦ pow(x, -alpha) * pow(z, x-1) * pow(w, pow(x-1, 2))`, the lower bound `m`,
the upper bound `+inf` and the tolerance `pow(epsilon, 0.5)`; this holds for
every library.  Over idealised doubles the tolerance is `sqrt(2^-52)` and, at
positive `z`, `w`, `x`, the integrand is the real number
`x^(-alpha) * z^(x-1) * w^((x-1)^2)`: the exponent of `w` is the square of
`x-1` (at `w = 1/2`, `x = 2` the integrand is `1/2`, not `1/4`). -/
theorem diff_function_logintegral_eq_log_integral :
    (∀ (D : Type) (L : Lib D) (alpha z w m : Arg D),
      value_of (diff_function_logintegral L alpha z w m) =
        L.log (L.integrate
          (fun x => L.mul
            (L.mul (L.pow x (L.neg (value_of alpha))) (L.pow (value_of z) (L.sub x L.one)))
            (L.pow (value_of w) (L.pow (L.sub x L.one) L.two)))
          (value_of m) L.infinity (L.pow L.epsilon L.half))) ∧
    (∀ (X : External) (alpha z w m : Arg Dbl),
      value_of (diff_function_logintegral (idealLib X) alpha z w m) =
        Dbl.log (X.integrate (f (idealLib X) alpha z w) (value_of m) .pinf
          (Dbl.sqrt (.fin ((2 : ℝ) ^ (-52 : ℤ)))))) ∧
    (∀ (X : External) (a z w x : ℝ), 0 < z → 0 < w → 0 < x →
      f (idealLib X) (.ofDouble (.fin a)) (.ofDouble (.fin z)) (.ofDouble (.fin w)) (.fin x) =
        .fin (x ^ (-a) * z ^ (x - 1) * w ^ ((x - 1) ^ 2))) ∧
    (∀ X : External,
      f (idealLib X) (.ofDouble (.fin 0)) (.ofDouble (.fin 1)) (.ofDouble (.fin (1 / 2))) (.fin 2) =
        .fin (1 / 2)) := by
  refine ⟨fun D L alpha z w m => ?_, fun X alpha z w m => ?_, fun X a z w x hz hw hx => ?_,
    fun X => ?_⟩
  · rw [diff_function_logintegral, value_of_promote]; rfl
  · rw [diff_function_logintegral, value_of_promote]
    have h1 := termination_ideal X
    have h2 := tolerance_ideal X
    simp only [tolerance, idealLib] at h2
    simp only [Q, h1, h2]
    rfl
  · exact f_ideal_of_pos X _ _ _ a z w x rfl rfl rfl hz hw hx
  · rw [f_ideal_of_pos X (.ofDouble (.fin 0)) (.ofDouble (.fin 1)) (.ofDouble (.fin (1 / 2)))
      0 1 (1 / 2) 2 rfl rfl rfl (by norm_num) (by norm_num) (by norm_num)]
    congr 1
    norm_num


/-- C2: `diff_function_logintegral` only reads the plain values of its
arguments: two argument tuples (scalars or duals) with the same plain values
give the same returned value, whatever derivatives the duals carry, and the
derivative carried by the result is the constant zero. -/
theorem diff_function_logintegral_discards_derivatives {D : Type} (L : Lib D)
    (alpha z w m alpha' z' w' m' : Arg D)
    (ha : value_of alpha = value_of alpha') (hz : value_of z = value_of z')
    (hw : value_of w = value_of w') (hm : value_of m = value_of m') :
    value_of (diff_function_logintegral L alpha z w m) =
      value_of (diff_function_logintegral L alpha' z' w' m') ∧
    (diff_function_logintegral L alpha z w m).derivative L = L.zero ∧
    (diff_function_logintegral L alpha' z' w' m').derivative L = L.zero := by
  refine ⟨?_, derivative_promote _ _ _, derivative_promote _ _ _⟩
  have hf : f L alpha z w = f L alpha' z' w' := by
    funext x
    simp only [f, ha, hz, hw]
  simp only [diff_function_logintegral, value_of_promote, Q, hf, hm]

/-- C2, at concrete inputs: the same plain values `2, 1/2, 1/2, 1`, once with
`alpha` a dual of derivative `1` and the rest scalars, once with every argument
a dual of another derivative. -/
theorem diff_function_logintegral_discards_derivatives_witness :
    value_of (diff_function_logintegral (idealLib sampleExternal)
        (.ofVar (.input (.fin 2) (.fin 1))) (.ofDouble (.fin (1 / 2)))
        (.ofDouble (.fin (1 / 2))) (.ofDouble (.fin 1))) =
      value_of (diff_function_logintegral (idealLib sampleExternal)
        (.ofVar (.input (.fin 2) (.fin 7))) (.ofVar (.input (.fin (1 / 2)) (.fin 3)))
        (.ofVar (.input (.fin (1 / 2)) .nan)) (.ofVar (.input (.fin 1) (.fin 0)))) ∧
    (diff_function_logintegral (idealLib sampleExternal)
        (.ofVar (.input (.fin 2) (.fin 1))) (.ofDouble (.fin (1 / 2)))
        (.ofDouble (.fin (1 / 2))) (.ofDouble (.fin 1))).derivative (idealLib sampleExternal) =
      .fin 0 ∧
    (diff_function_logintegral (idealLib sampleExternal)
        (.ofVar (.input (.fin 2) (.fin 7))) (.ofVar (.input (.fin (1 / 2)) (.fin 3)))
        (.ofVar (.input (.fin (1 / 2)) .nan))
        (.ofVar (.input (.fin 1) (.fin 0)))).derivative (idealLib sampleExternal) =
      .fin 0 :=
  diff_function_logintegral_discards_derivatives (idealLib sampleExternal)
    (.ofVar (.input (.fin 2) (.fin 1))) (.ofDouble (.fin (1 / 2)))
    (.ofDouble (.fin (1 / 2))) (.ofDouble (.fin 1))
    (.ofVar (.input (.fin 2) (.fin 7))) (.ofVar (.input (.fin (1 / 2)) (.fin 3)))
    (.ofVar (.input (.fin (1 / 2)) .nan)) (.ofVar (.input (.fin 1) (.fin 0)))
    rfl rfl rfl rfl

/-- C3: the value of the dual-path `zeta(s)` is the scalar-path `zeta` at
`s.val()`, for every library; two duals with the same value give results with
the same value, whatever derivative they carry. -/
theorem zeta_var_val_eq_zeta {D : Type} (L : Lib D) :
    (∀ s : var D, (zeta_var L s).val = zeta L s.val) ∧
    (∀ (v d d' : D), (zeta_var L (.input v d)).val = (zeta_var L (.input v d')).val) ∧
    (∀ s s' : var D, s.val = s'.val → (zeta_var L s).val = (zeta_var L s').val) := by
  refine ⟨fun s => rfl, fun v d d' => rfl, fun s s' h => ?_⟩
  show zeta L s.val = zeta L s'.val
  rw [h]


/-- C4: the derivative of the dual-path `zeta(s)` is `D * s.derivative` with
`D = I / tgamma(s.val())` and `I` the integrator's result for the patched
integrand `int_rep_zeta_prime` with tolerance `sqrt(epsilon)`, for every
library.  Over idealised doubles, away from the poles of `Gamma`, the divisor is
the real `Gamma(s)` and the tolerance `2^-26`; with the unit seed the derivative
is `D` itself; and for a finite `D = k` the derivative is the linear function
`d ↦ k * d` of a finite seed `d`. -/
theorem zeta_var_derivative :
    (∀ (D : Type) (L : Lib D) (s : var D),
      (zeta_var L s).derivative L =
        L.mul
          (L.div (L.integrate0 (int_rep_zeta_prime L s.val) (L.sqrt L.epsilon)) (L.tgamma s.val))
          (s.derivative L)) ∧
    (∀ (X : External) (v : ℝ), ¬ isPole v →
      zeta_deriv (idealLib X) (.fin v) =
        Dbl.div (X.integrate0 (int_rep_zeta_prime (idealLib X) (.fin v))
          (.fin ((2 : ℝ) ^ (-26 : ℤ)))) (.fin (Real.Gamma v))) ∧
    (∀ (X : External) (s : var Dbl), s.derivative (idealLib X) = .fin 1 →
      (zeta_var (idealLib X) s).derivative (idealLib X) = zeta_deriv (idealLib X) s.val) ∧
    (∀ (X : External) (s : var Dbl) (k d : ℝ), zeta_deriv (idealLib X) s.val = .fin k →
      s.derivative (idealLib X) = .fin d →
      (zeta_var (idealLib X) s).derivative (idealLib X) = .fin (k * d)) := by
  refine ⟨fun D L s => rfl, fun X v hv => ?_, fun X s hs => ?_, fun X s k d hk hd => ?_⟩
  · rw [zeta_deriv, tolerance_ideal]
    simp only [idealLib, Dbl.tgamma, if_neg hv]
  · show Dbl.mul (zeta_deriv (idealLib X) s.val) (s.derivative (idealLib X)) = _
    rw [hs, Dbl.mul_fin_one]
  · show Dbl.mul (zeta_deriv (idealLib X) s.val) (s.derivative (idealLib X)) = _
    rw [hk, hd]
    rfl

/-- C4, at a concrete input: `s = 2` with seed `3` and the one-sample
integrator; `D` is the finite value `g(1) / Gamma(2)` and the derivative is
`D * 3`. -/
theorem zeta_var_derivative_witness :
    (zeta_var (idealLib sampleExternal) (.input (.fin 2) (.fin 3))).derivative
        (idealLib sampleExternal) =
      .fin ((1 : ℝ) ^ ((2 : ℝ) - 1) * (Real.log 1 - digammaReal 2) / (Real.exp 1 - 1)
        / Real.Gamma 2 * 3) := by
  have hp : ¬ isPole 2 := not_isPole_of_pos (by norm_num)
  have hG : Real.Gamma 2 ≠ 0 := (Real.Gamma_pos_of_pos (by norm_num)).ne'
  refine zeta_var_derivative.2.2.2 sampleExternal (.input (.fin 2) (.fin 3)) _ 3 ?_ rfl
  show zeta_deriv (idealLib sampleExternal) (.fin 2) = _
  rw [zeta_var_derivative.2.1 sampleExternal 2 hp]
  show Dbl.div (int_rep_zeta_prime (idealLib sampleExternal) (.fin 2) (.fin 1)) _ = _
  rw [int_rep_zeta_prime_ideal_of_pos sampleExternal hp one_pos]
  simp only [Dbl.div, if_neg hG]


/-- C6: over idealised doubles the scalar-path `zeta` returns the Riemann zeta
function of its argument (away from the pole), so `zeta(2.0)` is `π²/6`, within
`1e-9` of `π²/6`, and `π²/6` is within `1e-6` of `1.644934`. -/
theorem zeta_two (X : External) :
    (∀ s : ℝ, s ≠ 1 → zeta (idealLib X) (.fin s) = .fin (riemannZeta (s : ℂ)).re) ∧
    zeta (idealLib X) (.fin 2) = .fin (Real.pi ^ 2 / 6) ∧
    |(zeta (idealLib X) (.fin 2)).toReal - Real.pi ^ 2 / 6| < 1e-9 ∧
    |Real.pi ^ 2 / 6 - 1.644934| < 1e-6 := by
  have hz : ∀ s : ℝ, s ≠ 1 → zeta (idealLib X) (.fin s) = .fin (riemannZeta (s : ℂ)).re := by
    intro s hs
    simp only [zeta, idealLib, Dbl.zeta, if_neg hs, zetaReal]
  have h2 : zeta (idealLib X) (.fin 2) = .fin (Real.pi ^ 2 / 6) := by
    rw [hz 2 (by norm_num)]
    congr 1
    have h : riemannZeta ((2 : ℝ) : ℂ) = ((Real.pi ^ 2 / 6 : ℝ) : ℂ) := by
      have := riemannZeta_two
      push_cast
      exact this
    rw [h, Complex.ofReal_re]
  refine ⟨hz, h2, ?_, ?_⟩
  · rw [h2]
    simp only [Dbl.toReal, sub_self, abs_zero]
    norm_num
  · have h1 := Real.pi_gt_d6
    have h3 := Real.pi_lt_d6
    rw [abs_lt]
    constructor <;> nlinarith

/-- C7: `diff_function_logintegral` takes the logarithm of `Q` unguarded.  When
the integrator returns `Q ≤ 0` (a non-positive real or `-inf`) the function
still returns a value, a non-finite one: `-inf` when `Q = 0`, `NaN` when
`Q < 0`. -/
theorem diff_function_logintegral_nonpositive_Q (X : External) (alpha z w m : Arg Dbl)
    (hQ : Q (idealLib X) alpha z w m = .ninf ∨
      ∃ q : ℝ, q ≤ 0 ∧ Q (idealLib X) alpha z w m = .fin q) :
    value_of (diff_function_logintegral (idealLib X) alpha z w m) =
      Dbl.log (Q (idealLib X) alpha z w m) ∧
    Dbl.isfinite (value_of (diff_function_logintegral (idealLib X) alpha z w m)) = false ∧
    (Q (idealLib X) alpha z w m = .fin 0 →
      value_of (diff_function_logintegral (idealLib X) alpha z w m) = .ninf) ∧
    ((Q (idealLib X) alpha z w m = .ninf ∨
        ∃ q : ℝ, q < 0 ∧ Q (idealLib X) alpha z w m = .fin q) →
      value_of (diff_function_logintegral (idealLib X) alpha z w m) = .nan) := by
  have hv : value_of (diff_function_logintegral (idealLib X) alpha z w m) =
      Dbl.log (Q (idealLib X) alpha z w m) := by
    rw [diff_function_logintegral, value_of_promote]; rfl
  refine ⟨hv, ?_, ?_, ?_⟩
  · rw [hv]
    rcases hQ with h | ⟨q, hq, h⟩
    · rw [h]; rfl
    · rw [h]
      simp only [Dbl.log, if_neg (not_lt.mpr hq)]
      split_ifs <;> rfl
  · intro h
    rw [hv, h]
    simp [Dbl.log]
  · rintro (h | ⟨q, hq, h⟩)
    · rw [hv, h]; rfl
    · rw [hv, h]
      simp only [Dbl.log, if_neg (not_lt.mpr hq.le), if_neg hq.ne]

/-- C7, at a concrete input: with `alpha = 0`, `z = 0`, `w = 1`, `m = 2` and the
one-sample integrator, `Q = f(2) = 0` and the function returns `-inf`. -/
theorem diff_function_logintegral_nonpositive_Q_witness :
    Q (idealLib sampleExternal) (.ofDouble (.fin 0)) (.ofDouble (.fin 0)) (.ofDouble (.fin 1))
        (.ofDouble (.fin 2)) = .fin 0 ∧
    value_of (diff_function_logintegral (idealLib sampleExternal) (.ofDouble (.fin 0))
        (.ofDouble (.fin 0)) (.ofDouble (.fin 1)) (.ofDouble (.fin 2))) = .ninf := by
  have hQ : Q (idealLib sampleExternal) (.ofDouble (.fin 0)) (.ofDouble (.fin 0))
      (.ofDouble (.fin 1)) (.ofDouble (.fin 2)) = .fin 0 := by
    show f (idealLib sampleExternal) (.ofDouble (.fin 0)) (.ofDouble (.fin 0))
      (.ofDouble (.fin 1)) (.fin 2) = .fin 0
    simp only [f, idealLib, value_of, Dbl.neg, Dbl.sub, Dbl.pow_fin_two]
    norm_num [Dbl.pow, Dbl.mul]
  exact ⟨hQ, (diff_function_logintegral_nonpositive_Q sampleExternal _ _ _ _
    (Or.inr ⟨0, le_refl 0, hQ⟩)).2.2.1 hQ⟩

/-- C8: `int_rep_zeta_prime` returns `ans` when `ans` is finite and `0.0` when it
is not; as `0.0` is finite, it always returns a finite value.  This holds for
every library in which `isfinite(0.0)` is true, and so over idealised doubles;
there, at `x = 0` and `s > 1`, `ans` is `0 * (-inf) / 0 = NaN` and the lambda
returns `0.0`. -/
theorem int_rep_zeta_prime_finite :
    (∀ (D : Type) (L : Lib D), L.isfinite L.zero = true → ∀ s x : D,
      L.isfinite (int_rep_zeta_prime L s x) = true ∧
      (L.isfinite (int_rep_zeta_prime_ans L s x) = true →
        int_rep_zeta_prime L s x = int_rep_zeta_prime_ans L s x) ∧
      (L.isfinite (int_rep_zeta_prime_ans L s x) = false →
        int_rep_zeta_prime L s x = L.zero)) ∧
    (∀ (X : External) (s x : Dbl),
      Dbl.isfinite (int_rep_zeta_prime (idealLib X) s x) = true ∧
      (Dbl.isfinite (int_rep_zeta_prime_ans (idealLib X) s x) = true →
        int_rep_zeta_prime (idealLib X) s x = int_rep_zeta_prime_ans (idealLib X) s x) ∧
      (Dbl.isfinite (int_rep_zeta_prime_ans (idealLib X) s x) = false →
        int_rep_zeta_prime (idealLib X) s x = .fin 0)) ∧
    (∀ (X : External) (s : ℝ), 1 < s →
      Dbl.pow (.fin 0) (Dbl.sub (.fin s) (.fin 1)) = .fin 0 ∧
      Dbl.sub (Dbl.log (.fin 0)) (Dbl.digamma X (.fin s)) = .ninf ∧
      Dbl.sub (Dbl.exp (.fin 0)) (.fin 1) = .fin 0 ∧
      int_rep_zeta_prime_ans (idealLib X) (.fin s) (.fin 0) = .nan ∧
      int_rep_zeta_prime (idealLib X) (.fin s) (.fin 0) = .fin 0) := by
  have gen : ∀ (D : Type) (L : Lib D), L.isfinite L.zero = true → ∀ s x : D,
      L.isfinite (int_rep_zeta_prime L s x) = true ∧
      (L.isfinite (int_rep_zeta_prime_ans L s x) = true →
        int_rep_zeta_prime L s x = int_rep_zeta_prime_ans L s x) ∧
      (L.isfinite (int_rep_zeta_prime_ans L s x) = false →
        int_rep_zeta_prime L s x = L.zero) := by
    intro D L h0 s x
    unfold int_rep_zeta_prime
    cases h : L.isfinite (int_rep_zeta_prime_ans L s x) <;> simp [h, h0]
  refine ⟨gen, fun X s x => gen Dbl (idealLib X) rfl s x, fun X s hs => ?_⟩
  have hp : ¬ isPole s := not_isPole_of_pos (by linarith)
  have h1 : Dbl.pow (.fin 0) (Dbl.sub (.fin s) (.fin 1)) = .fin 0 := by
    have hne : s - 1 ≠ 0 := by intro h; linarith
    have hpos : 0 < s - 1 := by linarith
    simp [Dbl.pow, Dbl.sub, hne, hpos]
  have h2 : Dbl.sub (Dbl.log (.fin 0)) (Dbl.digamma X (.fin s)) = .ninf := by
    simp [Dbl.log, Dbl.digamma, hp, Dbl.sub]
  have h3 : Dbl.sub (Dbl.exp (.fin 0)) (.fin 1) = .fin 0 := by
    simp [Dbl.exp, Dbl.sub]
  have h4 : int_rep_zeta_prime_ans (idealLib X) (.fin s) (.fin 0) = .nan := by
    show Dbl.div (Dbl.mul (Dbl.pow (.fin 0) (Dbl.sub (.fin s) (.fin 1)))
      (Dbl.sub (Dbl.log (.fin 0)) (Dbl.digamma X (.fin s))))
      (Dbl.sub (Dbl.exp (.fin 0)) (.fin 1)) = .nan
    rw [h1, h2, h3]
    simp [Dbl.mul, Dbl.infMul, Dbl.div]
  refine ⟨h1, h2, h3, h4, ?_⟩
  rw [int_rep_zeta_prime, h4]
  rfl

/-- C10: over idealised doubles, with `epsilon = 2^-52`, both tolerances are
exactly `2^-26`: `pow(epsilon, 0.5)` in `diff_function_logintegral` and
`sqrt(epsilon)` in `zeta`; this is the value each function passes to the
integrator, and it is within `1e-10` of `1.49e-8`. -/
theorem tolerances_agree (X : External) :
    (idealLib X).epsilon = .fin ((2 : ℝ) ^ (-52 : ℤ)) ∧
    termination (idealLib X) = .fin ((2 : ℝ) ^ (-26 : ℤ)) ∧
    tolerance (idealLib X) = .fin ((2 : ℝ) ^ (-26 : ℤ)) ∧
    termination (idealLib X) = tolerance (idealLib X) ∧
    |(2 : ℝ) ^ (-26 : ℤ) - 1.49e-8| < 1e-10 ∧
    (∀ alpha z w m : Arg Dbl, Q (idealLib X) alpha z w m =
      X.integrate (f (idealLib X) alpha z w) (value_of m) .pinf (.fin ((2 : ℝ) ^ (-26 : ℤ)))) ∧
    (∀ s : Dbl, zeta_deriv (idealLib X) s =
      Dbl.div (X.integrate0 (int_rep_zeta_prime (idealLib X) s) (.fin ((2 : ℝ) ^ (-26 : ℤ))))
        (Dbl.tgamma X s)) := by
  refine ⟨rfl, termination_ideal X, tolerance_ideal X, ?_, ?_, fun alpha z w m => ?_,
    fun s => ?_⟩
  · rw [termination_ideal, tolerance_ideal]
  · rw [abs_lt]
    constructor <;> norm_num
  · rw [Q, termination_ideal]; rfl
  · rw [zeta_deriv, tolerance_ideal]; rfl



/-- C5: for real `s > 1` the integrand of the dual path, evaluated over
idealised doubles at `x > 0`, is the real number
`g(x) = x^(s-1) * (ln x - digamma s) / (e^x - 1)`; `g` is integrable on
`(0, +inf)`, and `1 / Gamma(s)` times its integral is the derivative at `s` of
the Riemann zeta function. -/
theorem int_rep_zeta_prime_integral (X : External) (s : ℝ) (hs : 1 < s) :
    (∀ x : ℝ, 0 < x →
      int_rep_zeta_prime (idealLib X) (.fin s) (.fin x) =
        .fin (x ^ (s - 1) * (Real.log x - digammaReal s) / (Real.exp x - 1))) ∧
    MeasureTheory.IntegrableOn
      (fun x : ℝ => (int_rep_zeta_prime (idealLib X) (.fin s) (.fin x)).toReal) (Set.Ioi 0) ∧
    1 / Real.Gamma s *
        ∫ x in Set.Ioi (0 : ℝ), (int_rep_zeta_prime (idealLib X) (.fin s) (.fin x)).toReal =
      deriv (fun t : ℝ => (riemannZeta (t : ℂ)).re) s := by
  have hp : ¬ isPole s := not_isPole_of_pos (by linarith)
  have hpt : ∀ x : ℝ, 0 < x →
      int_rep_zeta_prime (idealLib X) (.fin s) (.fin x) =
        .fin (x ^ (s - 1) * (Real.log x - digammaReal s) / (Real.exp x - 1)) :=
    fun x hx => int_rep_zeta_prime_ideal_of_pos X hp hx
  have heq : Set.EqOn
      (fun x : ℝ => (int_rep_zeta_prime (idealLib X) (.fin s) (.fin x)).toReal)
      (fun x : ℝ => x ^ (s - 1) * (Real.log x - digammaReal s) / (Real.exp x - 1))
      (Set.Ioi 0) := by
    intro x hx
    show (int_rep_zeta_prime (idealLib X) (.fin s) (.fin x)).toReal = _
    rw [hpt x hx]
    rfl
  refine ⟨hpt, ?_, ?_⟩
  · exact (integrableOn_integrand (digammaReal s) hs).congr_fun heq.symm measurableSet_Ioi
  · rw [MeasureTheory.setIntegral_congr_fun measurableSet_Ioi heq]
    exact integral_integrand_eq hs

/-- C5, at `s = 2`. -/
theorem int_rep_zeta_prime_integral_witness :
    (1 : ℝ) < 2 ∧
    1 / Real.Gamma 2 *
        ∫ x in Set.Ioi (0 : ℝ),
          (int_rep_zeta_prime (idealLib sampleExternal) (.fin 2) (.fin x)).toReal =
      deriv (fun t : ℝ => (riemannZeta (t : ℂ)).re) 2 :=
  ⟨by norm_num, (int_rep_zeta_prime_integral sampleExternal 2 (by norm_num)).2.2⟩

/-- C9: over idealised doubles, for every real `alpha` and positive `z`, `w`,
`m`, the integrand `f` is a finite, strictly positive real at every `x ≥ m`,
namely `x^(-alpha) * z^(x-1) * w^((x-1)^2)`; and when it is integrable over
`[m, +inf)` its integral there is strictly positive. -/
theorem f_pos (X : External) (alpha z w : Arg Dbl) (a zr wr m : ℝ)
    (ha : value_of alpha = .fin a) (hz : value_of z = .fin zr) (hw : value_of w = .fin wr)
    (hzr : 0 < zr) (hwr : 0 < wr) (hm : 0 < m) :
    (∀ x : ℝ, m ≤ x →
      f (idealLib X) alpha z w (.fin x) =
        .fin (x ^ (-a) * zr ^ (x - 1) * wr ^ ((x - 1) ^ 2)) ∧
      0 < (f (idealLib X) alpha z w (.fin x)).toReal) ∧
    (MeasureTheory.IntegrableOn
        (fun x : ℝ => (f (idealLib X) alpha z w (.fin x)).toReal) (Set.Ici m) →
      0 < ∫ x in Set.Ici m, (f (idealLib X) alpha z w (.fin x)).toReal) := by
  have hpt : ∀ x : ℝ, m ≤ x →
      f (idealLib X) alpha z w (.fin x) =
        .fin (x ^ (-a) * zr ^ (x - 1) * wr ^ ((x - 1) ^ 2)) ∧
      0 < (f (idealLib X) alpha z w (.fin x)).toReal := by
    intro x hx
    have hx0 : 0 < x := lt_of_lt_of_le hm hx
    have h := f_ideal_of_pos X alpha z w a zr wr x ha hz hw hzr hwr hx0
    refine ⟨h, ?_⟩
    rw [h]
    show 0 < x ^ (-a) * zr ^ (x - 1) * wr ^ ((x - 1) ^ 2)
    have h1 : 0 < x ^ (-a) := Real.rpow_pos_of_pos hx0 _
    have h2 : 0 < zr ^ (x - 1) := Real.rpow_pos_of_pos hzr _
    have h3 : 0 < wr ^ ((x - 1) ^ 2) := Real.rpow_pos_of_pos hwr _
    positivity
  refine ⟨hpt, fun hint => ?_⟩
  have hnn : 0 ≤ᵐ[MeasureTheory.volume.restrict (Set.Ici m)]
      (fun x : ℝ => (f (idealLib X) alpha z w (.fin x)).toReal) := by
    rw [Filter.EventuallyLE, MeasureTheory.ae_restrict_iff' measurableSet_Ici]
    exact Filter.Eventually.of_forall (fun x hx => (hpt x hx).2.le)
  rw [MeasureTheory.setIntegral_pos_iff_support_of_nonneg_ae hnn hint]
  have hsub : Set.Ici m ⊆
      Function.support (fun x : ℝ => (f (idealLib X) alpha z w (.fin x)).toReal) ∩ Set.Ici m :=
    fun x hx => ⟨(hpt x hx).2.ne', hx⟩
  refine lt_of_lt_of_le ?_ (MeasureTheory.measure_mono hsub)
  rw [Real.volume_Ici]
  exact ENNReal.zero_lt_top

/-- C9, at the spec's test point `alpha = 2`, `z = 1/2`, `w = 1/2`, `m = 1`,
evaluated at `x = 1`. -/
theorem f_pos_witness :
    (0 : ℝ) < 1 / 2 ∧ (0 : ℝ) < 1 ∧
    0 < (f (idealLib sampleExternal) (.ofDouble (.fin 2)) (.ofDouble (.fin (1 / 2)))
      (.ofDouble (.fin (1 / 2))) (.fin 1)).toReal :=
  ⟨by norm_num, by norm_num,
    ((f_pos sampleExternal (.ofDouble (.fin 2)) (.ofDouble (.fin (1 / 2)))
      (.ofDouble (.fin (1 / 2))) 2 (1 / 2) (1 / 2) 1 rfl rfl rfl (by norm_num) (by norm_num)
      (by norm_num)).1 1 (le_refl 1)).2⟩

end Bplaw
